import Mathlib

/-!
# GitSleuth — verification of the specified backend core against its contracts

GitSleuth indexes a source repository into embedded chunks (one session per
repository) and answers questions about it by retrieval-augmented generation.
The repository ships the React frontend (`frontend/src`); the backend core
(Chunker, Ingestion Pipeline, Session Manager, Retrieval Engine, Query
Orchestrator) is specified by the frontend's API contracts and by the design
document. Frontend functions present in the sources (`types/index.ts`,
`IndexingStatus.js`) are embedded directly; backend components absent from the
sources are modelled from the spec, each such definition marked
`Modelled from the spec:`.
-/

namespace GitSleuth

/-- Session lifecycle status, from `frontend/src/types/index.ts`
(`enum SessionStatus`): `idle`, `indexing`, `ready`, `error`. -/
inductive SessionStatus where
  | idle
  | indexing
  | ready
  | error
deriving DecidableEq, Repr

/-- The five named ingestion steps, from the `step` strings consumed by
`IndexingStatus.js` (`getStepIcon` / `getStepDescription`). -/
inductive Step where
  | scanning_files
  | processing_files
  | generating_embeddings
  | storing_vectors
  | complete
deriving DecidableEq, Repr

/-! ## Chunker

Modelled from the spec: the backend Chunker is not in the shipped sources.
Spec §4.1: `chunk(file_path, content, chunk_size, overlap)` produces a finite
deterministic sequence of chunks; windows advance by `chunk_size - overlap`
characters; the final window is truncated to the remaining content. Chunk
metadata (§3): file path, 1-based inclusive `line_start`/`line_end`, raw text.
Content is modelled as its list of characters. -/

/-- A chunk of a source file: path, raw text, and 1-based inclusive line span. -/
structure Chunk where
  file_path : String
  text : List Char
  line_start : Nat
  line_end : Nat
deriving DecidableEq, Repr

/-- Number of newline characters in a list of characters. -/
def countNL (l : List Char) : Nat := l.countP (fun c => c = '\n')

/-- Modelled from the spec: build the chunk whose text starts at character
index `start` of the full file content. Lines are 1-based; the starting line
is one plus the newlines before `start`, and the ending line adds the
newlines inside the chunk's own text. -/
def mkChunk (path : String) (full : List Char) (start : Nat) (text : List Char) : Chunk :=
  { file_path := path
    text := text
    line_start := 1 + countNL (full.take start)
    line_end := 1 + countNL (full.take start) + countNL text }

/-- Modelled from the spec: the sliding-window loop of the Chunker. `rest` is
the unconsumed tail of the content, `start` its character offset in `full`.
Each window takes `size` characters and the window start advances by
`size - ov`; a final window shorter than `size` is emitted truncated. -/
def chunksAux (path : String) (full : List Char) (size ov : Nat) (hov : ov < size) :
    Nat → List Char → List Chunk
  | _, [] => []
  | start, c :: cs =>
    if _h : (c :: cs).length ≤ size then
      [mkChunk path full start (c :: cs)]
    else
      mkChunk path full start ((c :: cs).take size) ::
        chunksAux path full size ov hov (start + (size - ov)) ((c :: cs).drop (size - ov))
termination_by _ rest => rest.length
decreasing_by
  simp only [List.length_drop]
  omega

/-- Modelled from the spec: `chunk(file_path, content, chunk_size, overlap)`.
Valid configurations have `overlap < chunk_size` (otherwise the window would
not advance); on an invalid configuration no chunks are produced. -/
def chunk (path content : String) (size ov : Nat) : List Chunk :=
  if h : ov < size then chunksAux path content.data size ov h 0 content.data else []

/-- Reassemble file content from chunk texts: keep the first chunk whole and
drop the first `ov` (overlapping) characters of every later chunk. -/
def reassemble (ov : Nat) : List (List Char) → List Char
  | [] => []
  | t :: ts => t ++ (ts.map (fun u => u.drop ov)).flatten

/-! ### Chunker lemmas -/

theorem chunksAux_nil (path : String) (full : List Char) (size ov : Nat) (hov : ov < size)
    (start : Nat) : chunksAux path full size ov hov start [] = [] := by
  simp [chunksAux]

theorem chunksAux_cons_small (path : String) (full : List Char) (size ov : Nat)
    (hov : ov < size) (start : Nat) (c : Char) (cs : List Char)
    (hle : (c :: cs).length ≤ size) :
    chunksAux path full size ov hov start (c :: cs) = [mkChunk path full start (c :: cs)] := by
  rw [chunksAux]
  rw [dif_pos hle]

theorem chunksAux_cons_big (path : String) (full : List Char) (size ov : Nat)
    (hov : ov < size) (start : Nat) (c : Char) (cs : List Char)
    (hgt : ¬ (c :: cs).length ≤ size) :
    chunksAux path full size ov hov start (c :: cs) =
      mkChunk path full start ((c :: cs).take size) ::
        chunksAux path full size ov hov (start + (size - ov)) ((c :: cs).drop (size - ov)) := by
  rw [chunksAux]
  rw [dif_neg hgt]

theorem chunksAux_flatten_drop (path : String) (full : List Char) (size ov : Nat)
    (hov : ov < size) (start : Nat) (rest : List Char) :
    (((chunksAux path full size ov hov start rest).map Chunk.text).map
        (fun u => u.drop ov)).flatten
      = rest.drop ov := by
  match rest with
  | [] => simp [chunksAux_nil]
  | c :: cs =>
    by_cases h : (c :: cs).length ≤ size
    · rw [chunksAux_cons_small path full size ov hov start c cs h]
      simp [mkChunk, List.take_of_length_le h]
    · rw [chunksAux_cons_big path full size ov hov start c cs h]
      simp only [List.map_cons, List.flatten_cons, mkChunk]
      rw [chunksAux_flatten_drop path full size ov hov (start + (size - ov))
        ((c :: cs).drop (size - ov))]
      rw [List.drop_drop, List.drop_take]
      have h1 : size - ov + ov = size := by omega
      rw [h1]
      have h2 : (c :: cs).drop size = ((c :: cs).drop ov).drop (size - ov) := by
        rw [List.drop_drop]
        congr 1
        omega
      rw [h2, List.take_append_drop]
termination_by rest.length
decreasing_by
  simp only [List.length_drop]
  have : size < (c :: cs).length := by omega
  simp at this ⊢
  omega

theorem reassemble_chunksAux (path : String) (full : List Char) (size ov : Nat)
    (hov : ov < size) (start : Nat) (rest : List Char) :
    reassemble ov ((chunksAux path full size ov hov start rest).map Chunk.text) = rest := by
  match rest with
  | [] => simp [chunksAux_nil, reassemble]
  | c :: cs =>
    by_cases h : (c :: cs).length ≤ size
    · rw [chunksAux_cons_small path full size ov hov start c cs h]
      simp [mkChunk, reassemble]
    · rw [chunksAux_cons_big path full size ov hov start c cs h]
      simp only [List.map_cons, mkChunk, reassemble]
      rw [chunksAux_flatten_drop]
      rw [List.drop_drop]
      have h1 : size - ov + ov = size := by omega
      rw [h1, List.take_append_drop]

theorem chunk_reassemble (path content : String) (size ov : Nat) (hov : ov < size) :
    reassemble ov ((chunk path content size ov).map Chunk.text) = content.data := by
  rw [chunk, dif_pos hov, reassemble_chunksAux]

theorem chunksAux_text_at (path : String) (full : List Char) (size ov : Nat)
    (hov : ov < size) (start : Nat) (rest : List Char) (i : Nat)
    (hi : i < (chunksAux path full size ov hov start rest).length) :
    ((chunksAux path full size ov hov start rest).map Chunk.text)[i]?
      = some ((rest.drop (i * (size - ov))).take size) := by
  match rest with
  | [] => simp [chunksAux_nil] at hi
  | c :: cs =>
    by_cases h : (c :: cs).length ≤ size
    · rw [chunksAux_cons_small path full size ov hov start c cs h] at hi ⊢
      match i with
      | 0 => simp [mkChunk, List.take_of_length_le h]
      | i + 1 => simp at hi
    · rw [chunksAux_cons_big path full size ov hov start c cs h] at hi ⊢
      match i with
      | 0 => simp [mkChunk]
      | i + 1 =>
        simp only [List.map_cons, List.getElem?_cons_succ, List.length_cons,
          Nat.add_lt_add_iff_right] at hi ⊢
        rw [chunksAux_text_at path full size ov hov (start + (size - ov))
          ((c :: cs).drop (size - ov)) i hi]
        rw [List.drop_drop]
        congr 2
        ring_nf
termination_by rest.length
decreasing_by
  simp only [List.length_drop]
  have : size < (c :: cs).length := by omega
  simp at this ⊢
  omega

theorem chunksAux_line_le (path : String) (full : List Char) (size ov : Nat)
    (hov : ov < size) (start : Nat) (rest : List Char) (ch : Chunk)
    (hch : ch ∈ chunksAux path full size ov hov start rest) :
    ch.line_start ≤ ch.line_end := by
  match rest with
  | [] => simp [chunksAux_nil] at hch
  | c :: cs =>
    by_cases h : (c :: cs).length ≤ size
    · rw [chunksAux_cons_small path full size ov hov start c cs h] at hch
      simp at hch
      subst hch
      simp [mkChunk]
    · rw [chunksAux_cons_big path full size ov hov start c cs h] at hch
      simp at hch
      cases hch with
      | inl he =>
        subst he
        simp [mkChunk]
      | inr hm =>
        exact chunksAux_line_le path full size ov hov (start + (size - ov))
          ((c :: cs).drop (size - ov)) ch hm
termination_by rest.length
decreasing_by
  simp only [List.length_drop]
  have : size < (c :: cs).length := by omega
  simp at this ⊢
  omega

/-- C6: for a valid configuration (`overlap < chunk_size`), the chunk texts
are the windows of the content at starts advancing by `chunk_size - overlap`
(the final one truncated by `take` to the remaining content rather than
padded or dropped), the chunks minus the overlapping portions reassemble the
content exactly, and every chunk satisfies `line_start ≤ line_end`. -/
theorem chunk_windows_cover (path content : String) (size ov : Nat) (hov : ov < size) :
    (∀ i, i < (chunk path content size ov).length →
      ((chunk path content size ov).map Chunk.text)[i]?
        = some ((content.data.drop (i * (size - ov))).take size)) ∧
    reassemble ov ((chunk path content size ov).map Chunk.text) = content.data ∧
    ∀ ch ∈ chunk path content size ov, ch.line_start ≤ ch.line_end := by
  refine ⟨?_, chunk_reassemble path content size ov hov, ?_⟩
  · intro i hi
    rw [chunk, dif_pos hov] at hi ⊢
    exact chunksAux_text_at path content.data size ov hov 0 content.data i hi
  · intro ch hch
    rw [chunk, dif_pos hov] at hch
    exact chunksAux_line_le path content.data size ov hov 0 content.data ch hch

/-- C6 witness: chunking `"abc"` with size 2 and overlap 1 gives windows
`"ab"`, `"bc"` advancing by one, reassembling to `"abc"`. -/
theorem chunk_windows_cover_witness :
    1 < 2 ∧
    ((∀ i, i < (chunk "f.py" "abc" 2 1).length →
        ((chunk "f.py" "abc" 2 1).map Chunk.text)[i]?
          = some (("abc".data.drop (i * (2 - 1))).take 2)) ∧
      reassemble 1 ((chunk "f.py" "abc" 2 1).map Chunk.text) = "abc".data ∧
      ∀ ch ∈ chunk "f.py" "abc" 2 1, ch.line_start ≤ ch.line_end) :=
  ⟨by decide, chunk_windows_cover "f.py" "abc" 2 1 (by decide)⟩

/-- C7: chunking is deterministic — it is a pure function of the file path,
content and configuration, so running it twice on identical content yields
identical chunk sequences. -/
theorem chunk_deterministic (path : String) (content₁ content₂ : String) (size ov : Nat)
    (h : content₁ = content₂) :
    chunk path content₁ size ov = chunk path content₂ size ov := by
  rw [h]

/-- C7 witness: re-chunking the identical content `"abc"` yields the
identical chunk sequence. -/
theorem chunk_deterministic_witness :
    "abc" = "abc" ∧ chunk "f.py" "abc" 2 1 = chunk "f.py" "abc" 2 1 :=
  ⟨rfl, chunk_deterministic "f.py" "abc" "abc" 2 1 rfl⟩

/-! ## Session Manager and Ingestion Pipeline

Modelled from the spec: the Session Manager and the Ingestion Pipeline are not
in the shipped sources. One session's observable state (the fields polled via
`GET status/{session_id}` and rendered by the frontend) is a status, an
optional named step and the four progress counters; `activeRuns` counts the
ingestion runs currently executing for the session (spec §5: at most one).
The pipeline's behaviour is the step relation `Tr` below, one constructor per
spec-mandated mutation of the session (§4.2 steps 1–5, §4.3 `create`, the
failure edge, and the rejection of an `index` request on a session that is
already `indexing`). -/

/-- Observable state of one session plus the count of active ingestion runs. -/
structure SessState where
  status : SessionStatus
  step : Option Step
  processed_files : Nat
  total_files : Nat
  processed_chunks : Nat
  total_chunks : Nat
  activeRuns : Nat
deriving DecidableEq, Repr

/-- A fresh session before any indexing request. -/
def initSession : SessState :=
  { status := .idle, step := none, processed_files := 0, total_files := 0
    processed_chunks := 0, total_chunks := 0, activeRuns := 0 }

/-- Modelled from the spec: one observable mutation of a session's state.
`create` launches the pipeline atomically with the `idle → indexing` edge
(§4.3); `scan` fixes `total_files` at the end of `scanning_files` (§4.2 step
1); `fileDone` advances `processed_files` over the scanned files and
accumulates `total_chunks` (step 2); `batch` advances `processed_chunks` over
the accumulated chunks (step 3); `finish` is the `indexing → ready` edge at
`complete` (step 5); `fail` is the `indexing → error` edge; `reject` is a
second `index` request against an already-`indexing` session, which is
rejected without touching the state (§5). -/
inductive Tr : SessState → SessState → Prop where
  | create (s : SessState) :
      s.status = .idle →
      Tr s { status := .indexing, step := some .scanning_files, processed_files := 0
             total_files := 0, processed_chunks := 0, total_chunks := 0
             activeRuns := s.activeRuns + 1 }
  | scan (s : SessState) (n : Nat) :
      s.status = .indexing → s.step = some .scanning_files →
      Tr s { s with total_files := n, step := some .processing_files }
  | fileDone (s : SessState) (c : Nat) :
      s.status = .indexing → s.step = some .processing_files →
      s.processed_files < s.total_files →
      Tr s { s with processed_files := s.processed_files + 1
                    total_chunks := s.total_chunks + c }
  | toEmbedding (s : SessState) :
      s.status = .indexing → s.step = some .processing_files →
      s.processed_files = s.total_files →
      Tr s { s with step := some .generating_embeddings }
  | batch (s : SessState) (b : Nat) :
      s.status = .indexing → s.step = some .generating_embeddings →
      s.processed_chunks + b ≤ s.total_chunks →
      Tr s { s with processed_chunks := s.processed_chunks + b }
  | toStoring (s : SessState) :
      s.status = .indexing → s.step = some .generating_embeddings →
      s.processed_chunks = s.total_chunks →
      Tr s { s with step := some .storing_vectors }
  | finish (s : SessState) :
      s.status = .indexing → s.step = some .storing_vectors →
      Tr s { s with status := .ready, step := some .complete
                    activeRuns := s.activeRuns - 1 }
  | fail (s : SessState) :
      s.status = .indexing →
      Tr s { s with status := .error, activeRuns := s.activeRuns - 1 }
  | reject (s : SessState) :
      s.status = .indexing →
      Tr s s

/-- A session state reachable from the fresh session by observable mutations. -/
def Reachable (s : SessState) : Prop := Relation.ReflTransGen Tr initSession s

/-- The inductive invariant of one session: counters within bounds, exactly
one active run while `indexing` and none otherwise, zero counters while still
scanning, and an `idle` session is untouched. -/
def SessInv (s : SessState) : Prop :=
  s.processed_files ≤ s.total_files ∧
  s.processed_chunks ≤ s.total_chunks ∧
  s.activeRuns = (if s.status = .indexing then 1 else 0) ∧
  (s.step = some .scanning_files →
    s.processed_files = 0 ∧ s.total_files = 0 ∧
    s.processed_chunks = 0 ∧ s.total_chunks = 0) ∧
  (s.status = .idle → s = initSession)

instance (s : SessState) : Decidable (SessInv s) := by
  unfold SessInv
  infer_instance

theorem sessInv_init : SessInv initSession := by decide

theorem sessInv_preserved {s s' : SessState} (h : Tr s s') (hs : SessInv s) : SessInv s' := by
  obtain ⟨h1, h2, h3, h4, h5⟩ := hs
  cases h with
  | create hst => simp_all [SessInv, initSession]
  | scan n hst hstep =>
    obtain ⟨e1, e2, e3, e4⟩ := h4 hstep
    simp_all [SessInv]
  | fileDone c hst hstep hlt =>
    simp_all [SessInv]
    omega
  | toEmbedding hst hstep heq => simp_all [SessInv]
  | batch b hst hstep hle => simp_all [SessInv]
  | toStoring hst hstep heq => simp_all [SessInv]
  | finish hst hstep => simp_all [SessInv]
  | fail hst => simp_all [SessInv]
  | reject hst => exact ⟨h1, h2, h3, h4, h5⟩

theorem sessInv_reachable {s : SessState} (hs : Reachable s) : SessInv s := by
  induction hs with
  | refl => exact sessInv_init
  | tail _ hstep ih => exact sessInv_preserved hstep ih

/-- Modelled from the spec: how the Session Manager handles an `index` request
against an existing session (§5): on a session that is already `indexing` the
request is rejected and the state is untouched; otherwise the pipeline is
launched atomically with the `indexing` edge. Returns the next state and
whether the request proceeded. -/
def handleIndexRequest (s : SessState) : SessState × Bool :=
  if s.status = .indexing then (s, false)
  else ({ status := .indexing, step := some .scanning_files, processed_files := 0
          total_files := 0, processed_chunks := 0, total_chunks := 0
          activeRuns := s.activeRuns + 1 }, true)

/-- C1: along every observable mutation of a session, the status either stays
put or moves along one of the three edges `idle → indexing`,
`indexing → ready`, `indexing → error`; in particular nothing ever moves out
of `ready` or `error`, and `ready → indexing` never happens. -/
theorem status_transitions_monotone (s s' : SessState) (h : Tr s s') :
    (s.status = s'.status ∨
      (s.status = .idle ∧ s'.status = .indexing) ∨
      (s.status = .indexing ∧ s'.status = .ready) ∨
      (s.status = .indexing ∧ s'.status = .error)) ∧
    ((s.status = .ready ∨ s.status = .error) → s'.status = s.status) := by
  cases h with
  | create hst => simp_all
  | scan n hst hstep => simp_all
  | fileDone c hst hstep hlt => simp_all
  | toEmbedding hst hstep heq => simp_all
  | batch b hst hstep hle => simp_all
  | toStoring hst hstep heq => simp_all
  | finish hst hstep => simp_all
  | fail hst => simp_all
  | reject hst => simp_all

/-- C1 witness: the `create` edge from the fresh session is an
`idle → indexing` edge and satisfies the characterization. -/
theorem status_transitions_monotone_witness :
    Tr initSession (handleIndexRequest initSession).1 ∧
    ((initSession.status = (handleIndexRequest initSession).1.status ∨
        (initSession.status = .idle ∧ (handleIndexRequest initSession).1.status = .indexing) ∨
        (initSession.status = .indexing ∧ (handleIndexRequest initSession).1.status = .ready) ∨
        (initSession.status = .indexing ∧ (handleIndexRequest initSession).1.status = .error)) ∧
      ((initSession.status = .ready ∨ initSession.status = .error) →
        (handleIndexRequest initSession).1.status = initSession.status)) := by
  have htr : Tr initSession (handleIndexRequest initSession).1 := by
    have : (handleIndexRequest initSession).1 =
        { status := .indexing, step := some .scanning_files, processed_files := 0
          total_files := 0, processed_chunks := 0, total_chunks := 0
          activeRuns := initSession.activeRuns + 1 } := by decide
    rw [this]
    exact Tr.create initSession rfl
  exact ⟨htr, status_transitions_monotone initSession (handleIndexRequest initSession).1 htr⟩

/-- C2: in every reachable session state the progress counters satisfy
`processed_files ≤ total_files` and `processed_chunks ≤ total_chunks`, and
along every further observable mutation neither `total_files` nor
`total_chunks` decreases. -/
theorem progress_counters_sound (s : SessState) (hs : Reachable s) :
    (s.processed_files ≤ s.total_files ∧ s.processed_chunks ≤ s.total_chunks) ∧
    ∀ s', Tr s s' → s.total_files ≤ s'.total_files ∧ s.total_chunks ≤ s'.total_chunks := by
  obtain ⟨h1, h2, h3, h4, h5⟩ := sessInv_reachable hs
  refine ⟨⟨h1, h2⟩, ?_⟩
  intro s' h
  cases h with
  | create hst =>
    have := h5 hst
    subst this
    simp [initSession]
  | scan n hst hstep =>
    obtain ⟨e1, e2, e3, e4⟩ := h4 hstep
    simp_all
  | fileDone c hst hstep hlt => simp
  | toEmbedding hst hstep heq => simp
  | batch b hst hstep hle => simp
  | toStoring hst hstep heq => simp
  | finish hst hstep => simp
  | fail hst => simp
  | reject hst => simp

/-- C2 witness: the invariant evaluated at the fresh session, including
monotonicity of the totals along the `create` edge out of it. -/
theorem progress_counters_sound_witness :
    (initSession.processed_files ≤ initSession.total_files ∧
      initSession.processed_chunks ≤ initSession.total_chunks) ∧
    ∀ s', Tr initSession s' →
      initSession.total_files ≤ s'.total_files ∧
        initSession.total_chunks ≤ s'.total_chunks :=
  progress_counters_sound initSession Relation.ReflTransGen.refl

/-- C9: in every reachable session state at most one ingestion run is active,
an `index` request against a session that is already `indexing` is rejected
with the state (in particular every progress counter) untouched, and from an
`idle` session the first of two consecutive `index` requests proceeds while
the second is rejected with no state change, so no chunk or vector count is
double-counted. -/
theorem single_active_run (s : SessState) (hs : Reachable s) :
    s.activeRuns ≤ 1 ∧
    (s.status = .indexing → handleIndexRequest s = (s, false)) ∧
    (s.status = .idle →
      (handleIndexRequest s).2 = true ∧
      (handleIndexRequest s).1.activeRuns = 1 ∧
      handleIndexRequest (handleIndexRequest s).1 = ((handleIndexRequest s).1, false)) := by
  obtain ⟨h1, h2, h3, h4, h5⟩ := sessInv_reachable hs
  refine ⟨?_, ?_, ?_⟩
  · rw [h3]
    split <;> omega
  · intro hst
    simp [handleIndexRequest, hst]
  · intro hst
    have hz : s.activeRuns = 0 := by
      rw [h3, if_neg]
      simp [hst]
    have hne : ¬ s.status = .indexing := by simp [hst]
    refine ⟨?_, ?_, ?_⟩
    · simp [handleIndexRequest, if_neg hne]
    · simp [handleIndexRequest, if_neg hne, hz]
    · simp [handleIndexRequest, if_neg hne]

/-- C9 witness: the fresh session is `idle`; the first request proceeds with
exactly one active run and the second is rejected without a state change. -/
theorem single_active_run_witness :
    initSession.activeRuns ≤ 1 ∧
    (initSession.status = .indexing → handleIndexRequest initSession = (initSession, false)) ∧
    (initSession.status = .idle →
      (handleIndexRequest initSession).2 = true ∧
      (handleIndexRequest initSession).1.activeRuns = 1 ∧
      handleIndexRequest (handleIndexRequest initSession).1 =
        ((handleIndexRequest initSession).1, false)) :=
  single_active_run initSession Relation.ReflTransGen.refl

/-! ## Retrieval Engine

Modelled from the spec: the Retrieval Engine is not in the shipped sources.
Spec §4.4: embed the question, query the Vector Index for nearest neighbors
(the index's response is the `candidates` argument below, each candidate a
chunk with its similarity score), discard results with similarity below
`similarityThreshold`, truncate to `maxContextChunks` ordered by descending
similarity with ties broken by file path then `line_start`. Similarity scores
are modelled as rationals. -/

/-- A nearest-neighbor result from the Vector Index: a chunk and its
similarity score. -/
structure Retrieved where
  chunk : Chunk
  score : ℚ
deriving DecidableEq, Repr

/-- Modelled from the spec: the retrieval ordering — descending similarity,
ties broken by file path, then by `line_start`. -/
def retLE (a b : Retrieved) : Prop :=
  b.score < a.score ∨
    (a.score = b.score ∧
      (a.chunk.file_path < b.chunk.file_path ∨
        (a.chunk.file_path = b.chunk.file_path ∧ a.chunk.line_start ≤ b.chunk.line_start)))

instance : DecidableRel retLE := fun _ _ => instDecidableOr

instance : IsTotal Retrieved retLE := by
  constructor
  intro a b
  unfold retLE
  rcases lt_trichotomy a.score b.score with h | h | h
  · exact Or.inr (Or.inl h)
  · rcases lt_trichotomy a.chunk.file_path b.chunk.file_path with hp | hp | hp
    · exact Or.inl (Or.inr ⟨h, Or.inl hp⟩)
    · rcases Nat.le_total a.chunk.line_start b.chunk.line_start with hl | hl
      · exact Or.inl (Or.inr ⟨h, Or.inr ⟨hp, hl⟩⟩)
      · exact Or.inr (Or.inr ⟨h.symm, Or.inr ⟨hp.symm, hl⟩⟩)
    · exact Or.inr (Or.inr ⟨h.symm, Or.inl hp⟩)
  · exact Or.inl (Or.inl h)

instance : IsTrans Retrieved retLE := by
  constructor
  intro a b c hab hbc
  unfold retLE at hab hbc ⊢
  rcases hab with h1 | ⟨e1, p1⟩
  · rcases hbc with h2 | ⟨e2, _⟩
    · exact Or.inl (h2.trans h1)
    · exact Or.inl (e2 ▸ h1)
  · rcases hbc with h2 | ⟨e2, p2⟩
    · exact Or.inl (e1 ▸ h2)
    · refine Or.inr ⟨e1.trans e2, ?_⟩
      rcases p1 with hp1 | ⟨ep1, hl1⟩
      · rcases p2 with hp2 | ⟨ep2, _⟩
        · exact Or.inl (hp1.trans hp2)
        · exact Or.inl (ep2 ▸ hp1)
      · rcases p2 with hp2 | ⟨ep2, hl2⟩
        · exact Or.inl (ep1 ▸ hp2)
        · exact Or.inr ⟨ep1.trans ep2, hl1.trans hl2⟩

/-- Modelled from the spec:
`retrieve(sessionId, question, maxContextChunks, similarityThreshold)` —
keep the candidates whose similarity clears the threshold, order them by the
retrieval ordering, truncate to `maxContextChunks`. -/
def retrieve (candidates : List Retrieved) (maxContextChunks : Nat)
    (similarityThreshold : ℚ) : List Retrieved :=
  ((candidates.filter (fun r => similarityThreshold ≤ r.score)).insertionSort retLE).take
    maxContextChunks

/-- C3: every result returned by `retrieve` has similarity at least
`similarityThreshold`, at most `maxContextChunks` results are returned, and
they are ordered by descending similarity with ties broken by file path then
`line_start`. -/
theorem retrieve_spec (candidates : List Retrieved) (maxN : Nat) (thr : ℚ) :
    (∀ r ∈ retrieve candidates maxN thr, thr ≤ r.score) ∧
    (retrieve candidates maxN thr).length ≤ maxN ∧
    (retrieve candidates maxN thr).Sorted retLE := by
  refine ⟨?_, ?_, ?_⟩
  · intro r hr
    have hmem : r ∈ (candidates.filter (fun r => thr ≤ r.score)).insertionSort retLE :=
      (List.take_sublist _ _).subset hr
    rw [List.mem_insertionSort, List.mem_filter] at hmem
    simpa using hmem.2
  · rw [retrieve, List.length_take]
    exact min_le_left _ _
  · exact List.Pairwise.sublist (List.take_sublist _ _) (List.sorted_insertionSort retLE _)

/-- C3 witness: retrieving one context chunk at threshold 1/2 from two
candidates keeps only scores clearing the bar, within the bound, in order. -/
theorem retrieve_spec_witness :
    (∀ r ∈ retrieve [⟨⟨"a.py", ['x'], 1, 1⟩, mkRat 9 10⟩, ⟨⟨"b.py", ['y'], 2, 2⟩, mkRat 3 10⟩]
        1 (mkRat 1 2), mkRat 1 2 ≤ r.score) ∧
    (retrieve [⟨⟨"a.py", ['x'], 1, 1⟩, mkRat 9 10⟩, ⟨⟨"b.py", ['y'], 2, 2⟩, mkRat 3 10⟩]
        1 (mkRat 1 2)).length ≤ 1 ∧
    (retrieve [⟨⟨"a.py", ['x'], 1, 1⟩, mkRat 9 10⟩, ⟨⟨"b.py", ['y'], 2, 2⟩, mkRat 3 10⟩]
        1 (mkRat 1 2)).Sorted retLE :=
  retrieve_spec [⟨⟨"a.py", ['x'], 1, 1⟩, mkRat 9 10⟩, ⟨⟨"b.py", ['y'], 2, 2⟩, mkRat 3 10⟩]
    1 (mkRat 1 2)

/-! ## Confidence derivation

Modelled from the spec (§4.4, §3): a derived three-tier classification of one
query result computed from the retrieved similarity distribution; `high` if
the top score exceeds the high-bar threshold and at least two results clear
the base threshold, `low` if there are no results or the top score clears the
base threshold by less than a configured margin, `medium` otherwise. The
thresholds and margin are configuration values, passed as parameters. -/

/-- The three-tier confidence label (the strings consumed by
`QueryInterface.js`, `getConfidenceColor`). -/
inductive Confidence where
  | high
  | medium
  | low
deriving DecidableEq, Repr

/-- Modelled from the spec: derive the confidence label from the retrieved
scores (descending, so the head is the top result), the base threshold, the
high-bar threshold and the "barely clears" margin. -/
def deriveConfidence (scores : List ℚ) (base highBar margin : ℚ) : Confidence :=
  match scores with
  | [] => .low
  | top :: rest =>
    if highBar < top ∧ 2 ≤ (top :: rest).countP (fun s => decide (base ≤ s)) then .high
    else if top < base + margin then .low
    else .medium

/-- C4: the derived confidence is always one of the three tiers; it is `low`
on an empty retrieved list, never `high` when fewer than two results clear
the base threshold, and `high` whenever the top score exceeds the high bar
and at least two results clear the base threshold. -/
theorem confidence_spec (scores : List ℚ) (base highBar margin : ℚ) :
    (deriveConfidence scores base highBar margin = .high ∨
      deriveConfidence scores base highBar margin = .medium ∨
      deriveConfidence scores base highBar margin = .low) ∧
    (scores = [] → deriveConfidence scores base highBar margin = .low) ∧
    (scores.countP (fun s => decide (base ≤ s)) < 2 →
      deriveConfidence scores base highBar margin ≠ .high) ∧
    (∀ top rest, scores = top :: rest → highBar < top →
      2 ≤ scores.countP (fun s => decide (base ≤ s)) →
      deriveConfidence scores base highBar margin = .high) := by
  refine ⟨?_, ?_, ?_, ?_⟩
  · match scores with
    | [] => simp [deriveConfidence]
    | top :: rest =>
      simp only [deriveConfidence]
      split_ifs <;> simp
  · intro h
    subst h
    rfl
  · intro hlt
    match scores with
    | [] => simp [deriveConfidence]
    | top :: rest =>
      simp only [deriveConfidence]
      split_ifs with h1 h2
      · exact absurd h1.2 (by omega)
      · simp
      · simp
  · intro top rest he hhb hcnt
    subst he
    simp only [deriveConfidence]
    rw [if_pos ⟨hhb, hcnt⟩]

/-- C4 witness: an empty list is `low`; two strong scores with the top above
the high bar are `high`; a single result clearing the base is not `high`. -/
theorem confidence_spec_witness :
    deriveConfidence [] (mkRat 1 2) (mkRat 4 5) (mkRat 1 10) = .low ∧
    deriveConfidence [mkRat 9 10, mkRat 17 20] (mkRat 1 2) (mkRat 4 5) (mkRat 1 10) = .high ∧
    deriveConfidence [mkRat 9 10] (mkRat 1 2) (mkRat 4 5) (mkRat 1 10) ≠ .high :=
  ⟨(confidence_spec [] (mkRat 1 2) (mkRat 4 5) (mkRat 1 10)).2.1 rfl,
    (confidence_spec [mkRat 9 10, mkRat 17 20] (mkRat 1 2) (mkRat 4 5)
        (mkRat 1 10)).2.2.2 (mkRat 9 10) [mkRat 17 20] rfl (by decide) (by decide),
    (confidence_spec [mkRat 9 10] (mkRat 1 2) (mkRat 4 5) (mkRat 1 10)).2.2.1 (by decide)⟩

/-! ## Query Orchestrator

Modelled from the spec: the Query Orchestrator is not in the shipped sources.
Spec §4.6: verify session readiness, run the Retrieval Engine, short-circuit
with a fixed low-confidence "not found" answer when retrieval is empty, and
otherwise call the Answer Synthesizer on the retrieved context and assemble
the `QueryRecord`. The Answer Synthesizer is a boundary capability, modelled
as an arbitrary function from the retrieved context to answer text. -/

/-- A source attribution shown to the client, from `frontend/src/types/index.ts`
(`SourceReference`): file, snippet, 1-based line span. -/
structure SourceReference where
  file : String
  snippet : List Char
  line_start : Nat
  line_end : Nat
deriving DecidableEq, Repr

/-- The source attribution of one retrieved chunk. -/
def toSource (r : Retrieved) : SourceReference :=
  { file := r.chunk.file_path, snippet := r.chunk.text
    line_start := r.chunk.line_start, line_end := r.chunk.line_end }

/-- A completed query, from `frontend/src/types/index.ts` (`QueryResponse` /
`QueryHistory`): question, answer text, source attributions, confidence. -/
structure QueryRecord where
  question : String
  answer : String
  sources : List SourceReference
  confidence : Confidence
deriving DecidableEq, Repr

/-- Modelled from the spec: the fixed factual answer used when no relevant
context is found (§4.5). -/
def fallbackAnswer : String :=
  "No relevant context found in the indexed repository for this question."

/-- The fixed low-confidence fallback record: the fallback answer, zero
sources, confidence `low`. -/
def fallbackRecord (q : String) : QueryRecord :=
  { question := q, answer := fallbackAnswer, sources := [], confidence := .low }

/-- Modelled from the spec: `query(sessionId, question)` on a ready session —
retrieve bounded context; if empty, short-circuit with the fallback record
without calling the synthesizer; otherwise synthesize the answer over the
retrieved context and derive the confidence from the retrieved scores. -/
def runQuery (candidates : List Retrieved) (q : String) (maxN : Nat)
    (thr base highBar margin : ℚ) (synth : List Retrieved → String) : QueryRecord :=
  let res := retrieve candidates maxN thr
  if res.isEmpty then fallbackRecord q
  else
    { question := q, answer := synth res, sources := res.map toSource
      confidence := deriveConfidence (res.map Retrieved.score) base highBar margin }

/-- C5: whenever `retrieve` returns an empty list, the query returns the
fixed low-confidence fallback record with zero sources, for every possible
Answer Synthesizer — the result does not depend on the synthesizer at all, so
the synthesizer is never consulted. -/
theorem query_empty_fallback (candidates : List Retrieved) (q : String) (maxN : Nat)
    (thr base highBar margin : ℚ) (h : retrieve candidates maxN thr = []) :
    (∀ synth, runQuery candidates q maxN thr base highBar margin synth = fallbackRecord q) ∧
    ∀ synth₁ synth₂,
      runQuery candidates q maxN thr base highBar margin synth₁ =
        runQuery candidates q maxN thr base highBar margin synth₂ := by
  have he : ∀ synth,
      runQuery candidates q maxN thr base highBar margin synth = fallbackRecord q := by
    intro synth
    unfold runQuery
    rw [h]
    rfl
  exact ⟨he, fun g₁ g₂ => (he g₁).trans (he g₂).symm⟩

/-- C5 witness: with `similarityThreshold = 1` (the unreachable bar) and a
candidate scoring 9/10, retrieval is empty and the query degrades to the
fallback record for every synthesizer. -/
theorem query_empty_fallback_witness :
    retrieve [⟨⟨"a.py", ['x'], 1, 1⟩, mkRat 9 10⟩] 5 1 = [] ∧
    ((∀ synth, runQuery [⟨⟨"a.py", ['x'], 1, 1⟩, mkRat 9 10⟩] "q" 5 1 (mkRat 1 2)
        (mkRat 4 5) (mkRat 1 10) synth = fallbackRecord "q") ∧
      ∀ synth₁ synth₂,
        runQuery [⟨⟨"a.py", ['x'], 1, 1⟩, mkRat 9 10⟩] "q" 5 1 (mkRat 1 2) (mkRat 4 5)
            (mkRat 1 10) synth₁ =
          runQuery [⟨⟨"a.py", ['x'], 1, 1⟩, mkRat 9 10⟩] "q" 5 1 (mkRat 1 2) (mkRat 4 5)
            (mkRat 1 10) synth₂) :=
  ⟨by decide,
    query_empty_fallback [⟨⟨"a.py", ['x'], 1, 1⟩, mkRat 9 10⟩] "q" 5 1 (mkRat 1 2)
      (mkRat 4 5) (mkRat 1 10) (by decide)⟩

/-! ## Query endpoint error paths

Modelled from the spec: the Session Manager's registry (an owned map keyed by
session id, §9) and the Query Orchestrator's failure taxonomy (§4.6, §7):
`NotFound` for an unknown session id, `NotReady` for a session that exists
but is not `ready`. `DELETE session/{session_id}` removes the session from
the registry. An error outcome carries no `QueryRecord`, so no partial answer
is ever returned on these paths. -/

/-- The Query Orchestrator's failure taxonomy (§4.6). -/
inductive QueryError where
  | notFound
  | notReady
  | upstreamFailure
deriving DecidableEq, Repr

/-- Modelled from the spec: remove a session from the registry
(`DELETE session/{session_id}`). -/
def deleteSession (store : List (String × SessionStatus)) (sid : String) :
    List (String × SessionStatus) :=
  store.filter (fun p => p.1 != sid)

/-- Modelled from the spec: `POST query {session_id, question}` — look the
session up; fail `NotFound` when unknown, `NotReady` unless its status is
`ready`, and otherwise run the query. -/
def queryEndpoint (store : List (String × SessionStatus)) (sid : String)
    (candidates : List Retrieved) (q : String) (maxN : Nat)
    (thr base highBar margin : ℚ) (synth : List Retrieved → String) :
    Except QueryError QueryRecord :=
  match store.lookup sid with
  | none => .error .notFound
  | some st =>
    if st = .ready then .ok (runQuery candidates q maxN thr base highBar margin synth)
    else .error .notReady

theorem lookup_deleteSession (store : List (String × SessionStatus)) (sid : String) :
    (deleteSession store sid).lookup sid = none := by
  induction store with
  | nil => rfl
  | cons p t ih =>
    obtain ⟨k, v⟩ := p
    by_cases h : k = sid
    · simpa [deleteSession, List.filter_cons, h] using ih
    · simp only [deleteSession, List.filter_cons] at ih ⊢
      have hb : (k != sid) = true := by simpa using h
      rw [hb]
      simp only [if_pos rfl, List.lookup]
      have hbeq : (sid == k) = false := by
        simp [BEq.comm]
        exact fun he => h he.symm
      rw [hbeq]
      exact ih

/-- C8: querying an unknown session id fails `NotFound`; querying a session
just deleted fails `NotFound`; querying a session whose status is not `ready`
(for example `indexing`) fails `NotReady` — each outcome is an error carrying
no `QueryRecord`, so no partial answer is returned. -/
theorem query_error_paths (store : List (String × SessionStatus)) (sid : String)
    (candidates : List Retrieved) (q : String) (maxN : Nat)
    (thr base highBar margin : ℚ) (synth : List Retrieved → String) :
    (store.lookup sid = none →
      queryEndpoint store sid candidates q maxN thr base highBar margin synth
        = .error .notFound) ∧
    (queryEndpoint (deleteSession store sid) sid candidates q maxN thr base highBar margin synth
      = .error .notFound) ∧
    (∀ st, store.lookup sid = some st → st ≠ .ready →
      queryEndpoint store sid candidates q maxN thr base highBar margin synth
        = .error .notReady) := by
  refine ⟨?_, ?_, ?_⟩
  · intro h
    unfold queryEndpoint
    rw [h]
  · unfold queryEndpoint
    rw [lookup_deleteSession store sid]
  · intro st hst hne
    unfold queryEndpoint
    rw [hst]
    simp [if_neg hne]

/-- C8 witness: an empty registry gives `NotFound`; a deleted session gives
`NotFound`; an `indexing` session gives `NotReady`. -/
theorem query_error_paths_witness :
    (queryEndpoint [] "s" [] "q" 5 1 1 1 1 (fun _ => "") = .error .notFound) ∧
    (queryEndpoint (deleteSession [("s", .ready)] "s") "s" [] "q" 5 1 1 1 1 (fun _ => "")
      = .error .notFound) ∧
    (queryEndpoint [("s", .indexing)] "s" [] "q" 5 1 1 1 1 (fun _ => "")
      = .error .notReady) :=
  ⟨(query_error_paths [] "s" [] "q" 5 1 1 1 1 (fun _ => "")).1 rfl,
    (query_error_paths [("s", .ready)] "s" [] "q" 5 1 1 1 1 (fun _ => "")).2.1,
    (query_error_paths [("s", .indexing)] "s" [] "q" 5 1 1 1 1 (fun _ => "")).2.2
      .indexing rfl (by decide)⟩

/-! ## Frontend progress rendering -/

/-- The loosely-typed progress object of `StatusResponse` in
`frontend/src/types/index.ts`: every field optional. -/
structure ProgressJS where
  step : Option String
  processed_files : Option Nat
  total_files : Option Nat
  processed_chunks : Option Nat
  total_chunks : Option Nat
deriving DecidableEq, Repr

/-- `getProgressValue` from `frontend/src/components/IndexingStatus.js`:
return 0 without a progress object; destructure `processed_files` and
`total_files` with default 0; return 0 when `total_files` is 0; otherwise
`Math.round((processed_files / total_files) * 100)` (`Math.round x` is
`⌊x + 1/2⌋`, which is `round` on ℚ). -/
def getProgressValue (progress : Option ProgressJS) : ℤ :=
  match progress with
  | none => 0
  | some pr =>
    let p := pr.processed_files.getD 0
    let t := pr.total_files.getD 0
    if t = 0 then 0 else round (((p : ℚ) / (t : ℚ)) * 100)

/-- C10: `getProgressValue` is total and never divides by zero — it returns 0
without a progress object and whenever `total_files` defaults to or equals 0,
returns `round (100 * processed_files / total_files)` otherwise, and a
missing `processed_files` defaults to 0, giving 0. -/
theorem getProgressValue_total (pr : ProgressJS) :
    getProgressValue none = 0 ∧
    (pr.total_files.getD 0 = 0 → getProgressValue (some pr) = 0) ∧
    (∀ p t, pr.processed_files = some p → pr.total_files = some t → t ≠ 0 →
      getProgressValue (some pr) = round (100 * (p : ℚ) / (t : ℚ))) ∧
    (∀ t, pr.processed_files = none → pr.total_files = some t → t ≠ 0 →
      getProgressValue (some pr) = 0) := by
  refine ⟨rfl, ?_, ?_, ?_⟩
  · intro h
    simp [getProgressValue, h]
  · intro p t hp ht htne
    simp only [getProgressValue, hp, ht, Option.getD_some]
    rw [if_neg htne]
    congr 1
    ring
  · intro t hp ht htne
    simp only [getProgressValue, hp, ht, Option.getD_some, Option.getD_none]
    rw [if_neg htne]
    norm_num

/-- C10 witness: 3 of 4 files processed renders as `round (100 * 3 / 4)`. -/
theorem getProgressValue_total_witness :
    (4 : Nat) ≠ 0 ∧
    getProgressValue (some ⟨none, some 3, some 4, none, none⟩)
      = round (100 * (3 : ℚ) / (4 : ℚ)) :=
  ⟨by decide,
    (getProgressValue_total ⟨none, some 3, some 4, none, none⟩).2.2.1 3 4 rfl rfl (by decide)⟩

end GitSleuth
